import Mathlib

/-!
Verification of the vlhub training/evaluation harness data-pipeline and
evaluation helpers (src/training/data.py, src/training/train.py,
src/training/zero_shot.py), as a shallow embedding in Lean 4.

Python strings are modelled as `List Char` where character-level work is
needed, and as `String` where only whole-string comparison occurs.
Python machine integers held in C-typed shared memory are modelled as
`Int` with explicit two's-complement truncation.  Fallible code returns
`Except` or `Option`.
-/

namespace Vlhub

/-! ## shift_cipher (data.py lines 520-530) -/

/-- Python `str.isalpha`, modelled exactly on the Latin-1 range
(codepoints < 256: Unicode letters are 65-90, 97-122, 170, 181, 186,
192-214, 216-246, 248-255); codepoints at or above 256 are treated as
non-alphabetic (theorems below only evaluate it below 256). -/
def pyIsAlpha (c : Char) : Bool :=
  let n := c.toNat
  (65 ≤ n && n ≤ 90) || (97 ≤ n && n ≤ 122) ||
  n = 170 || n = 181 || n = 186 ||
  (192 ≤ n && n ≤ 214) || (216 ≤ n && n ≤ 246) ||
  (248 ≤ n && n ≤ 255)

/-- Python `str.islower`, modelled exactly on the Latin-1 range
(lowercase letters are 97-122, 170, 181, 186, 223-246, 248-255);
codepoints at or above 256 are treated as non-lowercase. -/
def pyIsLower (c : Char) : Bool :=
  let n := c.toNat
  (97 ≤ n && n ≤ 122) || n = 170 || n = 181 || n = 186 ||
  (223 ≤ n && n ≤ 246) || (248 ≤ n && n ≤ 255)

/-- The per-character `str.translate` table of `shift_cipher`:
`(ord(ch) - ordshift + shift) % 26 + ordshift` where `ordshift` is 97
for lowercase characters and 65 otherwise. -/
def shiftChar (c : Char) (shift : Int) : Char :=
  let ordshift : Int := if pyIsLower c then 97 else 65
  Char.ofNat ((((c.toNat : Int) - ordshift + shift) % 26 + ordshift).toNat)

/-- `shift_cipher(s, shift)` from data.py: each character that satisfies
`isalpha` is sent through the translate table, every other character is
appended unchanged. -/
def shift_cipher (s : List Char) (shift : Int) : List Char :=
  s.map (fun c => if pyIsAlpha c then shiftChar c shift else c)

/-- The specification's described behaviour: an ASCII lowercase letter is
rotated forward by `k` positions modulo 26 within `a`-`z`, an ASCII
uppercase letter within `A`-`Z`, and every other character is unchanged.
Stated from the claim's words, for comparison with `shift_cipher`. -/
def specRotChar (k : Int) (c : Char) : Char :=
  let n := c.toNat
  if 97 ≤ n ∧ n ≤ 122 then
    Char.ofNat ((((n : Int) - 97 + k) % 26).toNat + 97)
  else if 65 ≤ n ∧ n ≤ 90 then
    Char.ofNat ((((n : Int) - 65 + k) % 26).toNat + 65)
  else c

/-! ## SharedEpoch / DataInfo (data.py lines 451-472) -/

/-- Two's-complement truncation of an integer to a signed 32-bit value,
the store semantics of a ctypes/`multiprocessing.Value('i', _)` C int
(ctypes performs no overflow checking). -/
def truncI32 (e : Int) : Int := (e + 2 ^ 31) % (2 ^ 32) - 2 ^ 31

/-- `SharedEpoch` holds `multiprocessing.Value('i', epoch)`: a shared
signed 32-bit integer. -/
structure SharedEpoch where
  sharedEpoch : Int

/-- `SharedEpoch.__init__`: stores the epoch into the shared C int. -/
def SharedEpoch.init (epoch : Int) : SharedEpoch :=
  ⟨truncI32 epoch⟩

/-- `SharedEpoch.set_value`. -/
def SharedEpoch.set_value (_s : SharedEpoch) (epoch : Int) : SharedEpoch :=
  ⟨truncI32 epoch⟩

/-- `SharedEpoch.get_value`. -/
def SharedEpoch.get_value (s : SharedEpoch) : Int :=
  s.sharedEpoch

/-- `DataInfo`: the dataloader itself is framework state and out of scope;
the sampler is modelled by the epoch it would record (`none` when the
sampler is absent or not a `DistributedSampler`). -/
structure DataInfo where
  shared_epoch : Option SharedEpoch
  samplerEpoch : Option Int

/-- `DataInfo.set_epoch`. -/
def DataInfo.set_epoch (d : DataInfo) (epoch : Int) : DataInfo :=
  let se := match d.shared_epoch with
    | some s => some (s.set_value epoch)
    | none => none
  let sa := match d.samplerEpoch with
    | some _ => some epoch
    | none => none
  ⟨se, sa⟩

/-! ## get_dataset_fn (data.py lines 1434-1453) -/

/-- The four dataset-loading functions `get_dataset_fn` can return. -/
inductive DatasetFn where
  | wds
  | csv
  | imagefolder
  | synthetic
  deriving DecidableEq

/-- Python `str.split(sep)` for a one-character separator, over the
`List Char` model of strings: keeps empty fields, and splitting the
empty string yields one empty field. -/
def pySplitChar (sep : Char) (s : List Char) : List (List Char) :=
  match s with
  | [] => [[]]
  | c :: rest =>
      let r := pySplitChar sep rest
      if c = sep then [] :: r
      else
        match r with
        | [] => [[c]]
        | w :: ws => (c :: w) :: ws

/-- `get_dataset_fn(data_path, dataset_type)`; `ValueError` is modelled
as `Except.error` carrying the message.  The data path is a `List Char`
so that `data_path.split('.')[-1]` is computable. -/
def get_dataset_fn (data_path : List Char) (dataset_type : String) :
    Except String DatasetFn :=
  if dataset_type = "webdataset" then .ok .wds
  else if dataset_type ∈ ["csv"] then .ok .csv
  else if dataset_type = "imagefolder" then .ok .imagefolder
  else if dataset_type = "synthetic" then .ok .synthetic
  else if dataset_type = "auto" then
    let ext := (pySplitChar '.' data_path).getLastD []
    if ext ∈ ["csv".toList, "tsv".toList] then .ok .csv
    else if ext ∈ ["tar".toList] then .ok .wds
    else .error ("Tried to figure out dataset type, but failed for extention "
      ++ String.mk ext ++ ".")
  else .error ("Unsupported dataset type: " ++ dataset_type)

/-! ## Loss selection in train_one_epoch (train.py lines 56-103) -/

/-- The loss classes train_one_epoch can instantiate. -/
inductive LossKind where
  | simclr
  | intloss
  | iqe
  | alignunif
  | clip
  deriving DecidableEq

/-- The if/elif chain of `train_one_epoch` that picks the loss. -/
def selectLoss (sim_clr integer_labels iqe alignunif : Bool) : LossKind :=
  if sim_clr then .simclr
  else if integer_labels then .intloss
  else if iqe then .iqe
  else if alignunif then .alignunif
  else .clip

/-! ## zero_shot_eval guards (zero_shot.py lines 377-388) -/

/-- The guard clauses at the top of `zero_shot_eval`: `true` means the
function proceeds past the early `return results` statements with
`results` still empty, `false` means it returns the empty dictionary. -/
def zero_shot_eval_proceeds (dataKeys : List String)
    (zeroshot_frequency epoch epochs : Int) : Bool :=
  if "imagenet-val" ∉ dataKeys ∧ "imagenet-v2" ∉ dataKeys ∧
      "imagenet-r" ∉ dataKeys ∧ "imagenet-s" ∉ dataKeys ∧
      "imagenet-a" ∉ dataKeys ∧ "inat2021" ∉ dataKeys ∧
      "stanfordcars" ∉ dataKeys ∧ "flowers" ∉ dataKeys ∧
      "food" ∉ dataKeys ∧ "objectnet" ∉ dataKeys ∧
      "insecta" ∉ dataKeys then false
  else if zeroshot_frequency = 0 then false
  else if epoch % zeroshot_frequency ≠ 0 ∧ epoch ≠ epochs then false
  else true

/-- The eleven dataset keys `zero_shot_eval` recognizes. -/
def recognizedEvalKeys : List String :=
  ["imagenet-val", "imagenet-v2", "imagenet-r", "imagenet-s",
   "imagenet-a", "inat2021", "stanfordcars", "flowers", "food",
   "objectnet", "insecta"]

/-! ## token_trunc_func (data.py lines 137-146) -/

/-- `token_trunc_func(texts, k)`: the token tensor is a list of
integers and `k` an integer (`not k` is `k == 0` for integers).  The
`assert len(tcl) == 77` is modelled by returning `none` when it fails.
Python's `l[:k]` keeps the first `k` elements for `k ≥ 0` and all but
the last `-k` elements for negative `k`. -/
def token_trunc_func (texts : List Int) (k : Int) : Option (List Int) :=
  if k = 0 ∨ k ≥ 75 then some texts
  else
    let tc := texts.filter (fun t => t ≠ 49406 && t ≠ 0 && t ≠ 49407)
    let cut : Nat := if 0 ≤ k then k.toNat else tc.length - (-k).toNat
    let tcl := 49406 :: tc.take cut ++ [49407]
    let padded := tcl ++ List.replicate (77 - tcl.length) 0
    if padded.length = 77 then some padded else none

/-! ## clean_integer_label (data.py lines 159-217) -/

/-- A label value reaching `clean_integer_label`: an integer (Python
ints and bools; floats are converted to this case by the `int(label)`
cast at the top), a string, or a value of any other type. -/
inductive PyLabel where
  | int (n : Int)
  | str (s : List Char)
  | other

/-- What `clean_integer_label` can return: a scalar tensor, a tensor
built from a list, or the empty string. -/
inductive PyLabelRet where
  | scalar (n : Int)
  | tensor (l : List Int)
  | emptyStr
  deriving DecidableEq

/-- `clean_integer_label(label, singleclass, strict, ds)`.  Only the
length of `ds` is used by the source; an absent or empty `ds` is
replaced by `[0]*1000`.  `parse` models the Python-stdlib string
parsing (`ast.literal_eval` or `split(", ")`, then `int(l)` on each
element): `none` when an exception escapes the conversion loop,
otherwise the list of parsed integers. -/
def clean_integer_label (parse : List Char → Option (List Int))
    (label : PyLabel) (singleclass strict : Bool) (ds : List (List Char)) :
    PyLabelRet :=
  let ds := if ds.length = 0 then List.replicate 1000 [] else ds
  match label with
  | .int n =>
      let n := if n < 0 ∨ n > (ds.length : Int) - 1 then 0 else n
      if singleclass then .scalar n
      else .tensor (n :: List.replicate 24 (-1))
  | .str s =>
      if s = [] then .emptyStr
      else
        match parse s with
        | none => .emptyStr
        | some l =>
            let l := l.map (fun n => if n < 0 ∨ n > (ds.length : Int) - 1 then 0 else n)
            if l = [] then .emptyStr
            else
              let l :=
                if l.length < 25 then l ++ List.replicate (25 - l.length) (-1)
                else if l.length > 25 then l.take 25
                else l
              if singleclass then .scalar (l.headD 0)
              else if strict then
                if l.getD 1 0 = -1 then .scalar (l.headD 0) else .emptyStr
              else .tensor l
  | .other => .emptyStr

/-! ## accuracy and run (zero_shot.py lines 88-91, 93-280) -/

/-- The index order produced by `output.topk(maxk, 1, True, True)[1]`
on one logits row (scores modelled as rationals): all class indices
sorted by descending score, ties broken by ascending index (torch
leaves the tie order unspecified; the embedding fixes this
deterministic one), truncated to the first `m`. -/
def topkIdx (row : List ℚ) (m : Nat) : List Nat :=
  ((List.range row.length).insertionSort
    (fun i j => row.getD j 0 < row.getD i 0 ∨
      (row.getD i 0 = row.getD j 0 ∧ i ≤ j))).take m

/-- `accuracy(output, target, topk)`: per row take the top `max(topk)`
class indices, compare them with the broadcast target
(`pred.eq(target.view(1, -1).expand_as(pred))`), and for each `k` in
`topk` sum the matches over the first `k` ranks and all rows. -/
def accuracy (output : List (List ℚ)) (target : List Nat)
    (topk : List Nat) : List Nat :=
  let maxk := topk.foldr Nat.max 0
  let pred := output.map (fun row => topkIdx row maxk)
  topk.map (fun k =>
    (((pred.map (fun p => p.take k)).zip target).map
      (fun pt => pt.1.count pt.2)).sum)

/-- The number of evaluated rows whose target index is among the `k`
highest-scoring classes of that row: the specification's reading of
each entry of `accuracy`. -/
def topkCorrectCount (output : List (List ℚ)) (target : List Nat)
    (k : Nat) : Nat :=
  ((output.zip target).filter (fun rt => decide (rt.2 ∈ topkIdx rt.1 k))).length

/-- Total sample count over the batches (`n += images.size(0)`; each
batch holds the logits computed from its images, one row per image,
plus the target vector). -/
def totalN (batches : List (List (List ℚ) × List Nat)) : Nat :=
  (batches.map (fun b => b.1.length)).sum

/-- Total correct count at rank `k` over the batches. -/
def totalCorrect (batches : List (List (List ℚ) × List Nat)) (k : Nat) : Nat :=
  (batches.map (fun b => topkCorrectCount b.1 b.2 k)).sum

/-- One iteration of the accumulation loop of `run`:
`acc1, acc5 = accuracy(logits, target, (1, min(5, len(classnames))))`,
then `n += images.size(0)`, `top1 += acc1`, `top5 += acc5`.  The state
is `(top1, top5, n)`. -/
def zsStep (numClassnames : Nat) (s : ℚ × ℚ × ℚ)
    (b : List (List ℚ) × List Nat) : ℚ × ℚ × ℚ :=
  let accs := accuracy b.1 b.2 [1, min 5 numClassnames]
  (s.1 + (accs.getD 0 0 : Nat), s.2.1 + (accs.getD 1 0 : Nat),
    s.2.2 + (b.1.length : Nat))

/-- `run` (zero_shot.py lines 93-280) in the standard VL configuration
(`caption_subset` empty, `isint` false, `gc` false, `extended_metrics`
false, split neither objectnet nor an `_in21k` remap): starting from
`top1, top5, n = 0., 0., 0.` it folds `zsStep` over the batches and
returns `(top1/n, top5/n)`. -/
def zsRun (batches : List (List (List ℚ) × List Nat))
    (numClassnames : Nat) : ℚ × ℚ :=
  let acc := batches.foldl (zsStep numClassnames) (0, 0, 0)
  (acc.1 / acc.2.2, acc.2.1 / acc.2.2)

/-! ## detshuffle2 (data.py lines 933-960) and webdataset _shuffle -/

/-- Modelled from `webdataset.filters.pick` (external dependency used
by `_shuffle`): draw `k = rng.randint(0, len(buf) - 1)`, take `buf[k]`,
move the last element into slot `k` and pop it.  The random generator
is abstract: `randint g n` yields a number (assumed to lie in `[0, n]`,
as `random.Random.randint` guarantees) and the successor state. -/
def wdsPick {σ α : Type} (randint : σ → Nat → Nat × σ) (b : α)
    (rest : List α) (g : σ) : α × List α × σ :=
  let buf := b :: rest
  let r := randint g (buf.length - 1)
  (buf.getD r.1 b, (buf.set r.1 (buf.getLastD b)).dropLast, r.2)

/-- Modelled from `webdataset.filters._shuffle` (external dependency):
the drain phase `while len(buf) > 0: yield pick(buf, rng)`. -/
def wdsDrain {σ α : Type} (randint : σ → Nat → Nat × σ) :
    List α → σ → List α
  | [], _ => []
  | b :: rest, g =>
      let p := wdsPick randint b rest g
      p.1 :: wdsDrain randint p.2.1 p.2.2
termination_by buf _ => buf.length
decreasing_by
  simp only [wdsPick, List.length_dropLast, List.length_set, List.length_cons]
  omega

/-- The buffer after the `buf.append(sample)` /
`if len(buf) < bufsize: buf.append(next(data))` steps of `_shuffle`. -/
def wdsPrefetchBuf {α : Type} (bufsize : Nat) (buf rest : List α) :
    List α :=
  if buf.length < bufsize then
    match rest with
    | [] => buf
    | t :: _ => buf ++ [t]
  else buf

/-- The remaining input after the same prefetch step. -/
def wdsPrefetchRest {α : Type} (bufsize : Nat) (buf rest : List α) :
    List α :=
  if buf.length < bufsize then
    match rest with
    | [] => []
    | _ :: r => r
  else rest

/-- Modelled from `webdataset.filters._shuffle` (external dependency):
the main loop over the source, carrying the shuffle buffer; a pick is
emitted once the buffer holds at least `initial` elements. -/
def wdsLoop {σ α : Type} (randint : σ → Nat → Nat × σ)
    (bufsize initial : Nat) : List α → List α → σ → List α
  | [], buf, g => wdsDrain randint buf g
  | s :: rest, buf, g =>
      let buf2 := wdsPrefetchBuf bufsize (buf ++ [s]) rest
      let rest2 := wdsPrefetchRest bufsize (buf ++ [s]) rest
      if initial ≤ buf2.length then
        match buf2 with
        | [] => wdsLoop randint bufsize initial rest2 [] g
        | b :: br =>
            let p := wdsPick randint b br g
            p.1 :: wdsLoop randint bufsize initial rest2 p.2.1 p.2.2
      else wdsLoop randint bufsize initial rest2 buf2 g
termination_by src _ _ => src.length
decreasing_by
  all_goals
    simp only [wdsPrefetchRest, List.length_cons]
    split
    · cases rest <;> simp <;> omega
    · omega

/-- `_shuffle(data, bufsize, initial, rng)`: caps `initial` at
`bufsize` and runs the buffered shuffle starting from an empty
buffer. -/
def wds_shuffle {σ α : Type} (randint : σ → Nat → Nat × σ)
    (src : List α) (bufsize initial : Nat) (g : σ) : List α :=
  wdsLoop randint bufsize (min initial bufsize) src [] g

/-- The `epoch` attribute of a detshuffle2 instance: either a
`SharedEpoch` or a plain integer counter. -/
inductive EpochField where
  | shared (se : SharedEpoch)
  | counter (n : Int)

/-- `detshuffle2.__init__` state: bufsize, initial, seed, epoch. -/
structure detshuffle2 where
  bufsize : Nat
  initial : Nat
  seed : Int
  epoch : EpochField

/-- The epoch value `detshuffle2.run` reads, with the updated instance
(the integer-counter case increments `self.epoch` first). -/
def detshuffle2.epochStep (d : detshuffle2) : Int × detshuffle2 :=
  match d.epoch with
  | .shared se => (se.get_value, d)
  | .counter n => (n + 1, { d with epoch := .counter (n + 1) })

/-- The value `detshuffle2.run` feeds to `rng.seed`: the pytorch worker
seed plus epoch when the configured seed is negative, otherwise
`self.seed + epoch`. -/
def detshuffle2.seedUsed (d : detshuffle2) (workerSeed epoch : Int) : Int :=
  if d.seed < 0 then workerSeed + epoch else d.seed + epoch

/-- `detshuffle2.run(src)`: reads the epoch, seeds a fresh
`random.Random()` (the deterministic generator construction is the
abstract `seedFn`), and returns
`_shuffle(src, self.bufsize, self.initial, rng)` with the updated
instance.  `workerSeed` models `pytorch_worker_seed()`, which only
matters when the configured seed is negative. -/
def detshuffle2.run {σ α : Type} (seedFn : Int → σ)
    (randint : σ → Nat → Nat × σ) (d : detshuffle2) (workerSeed : Int)
    (src : List α) : List α × detshuffle2 :=
  let e := d.epochStep
  let rng := seedFn (d.seedUsed workerSeed e.1)
  (wds_shuffle randint src d.bufsize d.initial rng, e.2)

/-! ## synset_ds / filter_preprocess_txt (data.py lines 488-619, 866-873) -/

/-- Python `" ".join(ws)` over the `List Char` string model. -/
def pyJoinSpace : List (List Char) → List Char
  | [] => []
  | [w] => w
  | w :: ws => w ++ ' ' :: pyJoinSpace ws

/-- Python `str.isspace` membership for `str.strip()`, modelled on the
ASCII whitespace characters. -/
def pyIsSpace (c : Char) : Bool :=
  c = ' ' ∨ c = '\t' ∨ c = '\n' ∨ c = '\r' ∨ c = '\x0b' ∨ c = '\x0c'

/-- Python `str.strip()`: drop leading and trailing whitespace. -/
def pyStrip (s : List Char) : List Char :=
  ((s.dropWhile pyIsSpace).reverse.dropWhile pyIsSpace).reverse

/-- Whether `pat` starts the list `s`. -/
def leadsWith : List Char → List Char → Bool
  | [], _ => true
  | _ :: _, [] => false
  | p :: ps, c :: cs => p = c && leadsWith ps cs

/-- Python `s.find(pat) != -1`: `pat` occurs contiguously in `s`. -/
def pyFindHas (s pat : List Char) : Bool :=
  (List.range (s.length + 1)).any (fun i => leadsWith pat (s.drop i))

/-- The replacement pass of `str.replace` for a nonempty pattern. -/
def pyReplaceAux (pat rep : List Char) : List Char → List Char
  | [] => []
  | c :: cs =>
      if leadsWith pat (c :: cs) then
        if h : pat = [] then c :: pyReplaceAux pat rep cs
        else rep ++ pyReplaceAux pat rep ((c :: cs).drop pat.length)
      else c :: pyReplaceAux pat rep cs
termination_by s => s.length
decreasing_by
  · simp only [List.length_cons]
    omega
  · have hp : pat.length ≠ 0 := fun hl => h (List.length_eq_zero.mp hl)
    simp only [List.length_drop, List.length_cons]
    omega
  · simp only [List.length_cons]
    omega

/-- Python `s.replace(pat, rep)` (all occurrences; an empty pattern
interleaves `rep` around every character). -/
def pyReplace (s pat rep : List Char) : List Char :=
  if pat = [] then rep ++ (s.map (fun c => c :: rep)).flatten
  else pyReplaceAux pat rep s

/-- `str(idx)` for the class index. -/
def natToStr (n : Nat) : List Char :=
  (Nat.repr n).toList

/-- `cipher_dict` (data.py lines 70-103). -/
def cipher_dict (c : Char) : Option (List Char) :=
  match c with
  | 'a' => some "@^".toList
  | 'b' => some "#^".toList
  | 'c' => some "$^".toList
  | 'd' => some "%^".toList
  | 'e' => some "@&".toList
  | 'f' => some "#&".toList
  | 'g' => some "$&".toList
  | 'h' => some "%&".toList
  | 'i' => some "@*".toList
  | 'j' => some "#*".toList
  | 'k' => some "$*".toList
  | 'l' => some "%*".toList
  | 'm' => some "@(".toList
  | 'n' => some "#(".toList
  | 'o' => some "$(".toList
  | 'p' => some "%(".toList
  | 'q' => some "@)".toList
  | 'r' => some "#)".toList
  | 's' => some "$)".toList
  | 't' => some "%)".toList
  | 'u' => some "@+".toList
  | 'v' => some "#+".toList
  | 'w' => some "$+".toList
  | 'x' => some "%+".toList
  | 'y' => some "@=".toList
  | 'z' => some "#=".toList
  | ' ' => some " ".toList
  | '\'' => some "'".toList
  | ',' => some ",".toList
  | '.' => some ".".toList
  | '!' => some "!".toList
  | '?' => some "?".toList
  | _ => none

/-- The `k = k + (cipher_dict.get(c) or c)` accumulation building the
ciphered gram. -/
def cipherGram (g : List Char) : List Char :=
  g.foldl (fun acc c => acc ++ ((cipher_dict c).getD [c])) []

/-- Modelled from the spec: helpers `synset_ds` and
`filter_preprocess_txt` call that are not part of src/ or are library
code.  `cleanCaptions` and `dsValGetter` come from
clean_filter_captions.py (repository code not under src/; the spec only
calls them caption filtering over class names, so they are abstract
here); `lemmatize` is nltk's WordNetLemmatizer, `wnNonempty` the
truthiness of `wordnet.synsets(gram)`, `shuffleFn` the permutation
`random.shuffle` applies, `parse` the
`ast.literal_eval`-or-`split(", ")` integer parsing used by
`clean_integer_label`, and `metaEmpty`/`metaRow` the `metacaptions`
dataframe (`metaRow idx` lists the `", "`-split items of the five
fields of the first row matching `idx`, `none` when no row matches). -/
structure ExtFns where
  cleanCaptions : List Char → List Char
  lemmatize : List Char → List Char
  dsValGetter : List (List Char) → List (List (List Char))
  wnNonempty : List Char → Bool
  shuffleFn : List (List Char) → List (List Char)
  parse : List Char → Option (List Int)
  metaEmpty : Bool
  metaRow : Nat → Option (List (List Char))

/-- `scramble_txt(text)`: split on spaces, `random.shuffle`, join and
strip. -/
def scramble_txt (E : ExtFns) (text : List Char) : List Char :=
  pyStrip (pyJoinSpace (E.shuffleFn (pySplitChar ' ' text)))

/-- What `synset_ds` returns: a flag or a string, depending on the
arguments. -/
inductive SynRet where
  | bool (b : Bool)
  | str (s : List Char)
  deriving DecidableEq

/-- Python truthiness of a `synset_ds` result. -/
def SynRet.truthy : SynRet → Bool
  | .bool b => b
  | .str s => !s.isEmpty

/-- The `elif not metacaptions.empty` body on a match: append every
item of the matched row's fields that `str_s` does not yet contain. -/
def synMetaApply (metaRow : Nat → Option (List (List Char))) (idx : Nat)
    (str_s : List Char) : List Char :=
  match metaRow idx with
  | none => str_s
  | some items =>
      items.foldl
        (fun acc item =>
          if pyFindHas acc item then acc else acc ++ ' ' :: item) str_s

/-- The common tail of a `gram_t in val` match: the `simplecaptions`
rewrites, `flag = True`, and the cipher replacement
`str_s.replace(gram, k)`. -/
def synCommonTail (simplecaptions cipher : Bool) (gram gram_t : List Char)
    (flag : Bool) (s1 : List Char) : List Char × Bool :=
  let s2 :=
    if simplecaptions ∧ ¬flag then "An image of ".toList ++ gram_t
    else if simplecaptions ∧ flag ∧ ¬pyFindHas s1 gram then s1 ++ ' ' :: gram
    else s1
  (if cipher then pyReplace s2 gram gram_t else s2, true)

/-- The body executed when `gram_t in val` holds for class index
`idx`: the `integer_labels` branches (the second of which `continue`s),
the metacaptions enrichment, then the common tail. -/
def synMatchBody (integer_labels simplecaptions cipher metaEmpty : Bool)
    (metaRow : Nat → Option (List (List Char))) (gram gram_t : List Char)
    (idx : Nat) (st : List Char × Bool) : List Char × Bool :=
  if integer_labels ∧ ¬st.2 then
    synCommonTail simplecaptions cipher gram gram_t st.2 (natToStr idx)
  else if integer_labels then
    (if pyFindHas st.1 (natToStr idx) then st.1
     else st.1 ++ ',' :: ' ' :: natToStr idx, st.2)
  else
    synCommonTail simplecaptions cipher gram gram_t st.2
      (if ¬metaEmpty then synMetaApply metaRow idx st.1 else st.1)

/-- `for idx, val in enumerate(ds_values.values())`. -/
def synValLoop (integer_labels simplecaptions cipher metaEmpty : Bool)
    (metaRow : Nat → Option (List (List Char))) (gram gram_t : List Char)
    (vals : List (List (List Char))) (st : List Char × Bool) :
    List Char × Bool :=
  (vals.enum).foldl
    (fun st iv =>
      if gram_t ∈ iv.2 then
        synMatchBody integer_labels simplecaptions cipher metaEmpty metaRow
          gram gram_t iv.1 st
      else st) st

/-- Processing one gram: the cipher transliteration of the gram, the
class-list matching when a dataset is active, and otherwise the
wordnet-based `simplecaptions` branch (whose
`d in stopwords.words('english')` test compares a list against strings
and is therefore never true; `flag = True` sits at the end of that
branch unconditionally). -/
def synGramStep (integer_labels simplecaptions cipher metaEmpty : Bool)
    (metaRow : Nat → Option (List (List Char)))
    (wnNonempty : List Char → Bool) (dsActive : Bool)
    (vals : List (List (List Char))) (gram : List Char)
    (st : List Char × Bool) : List Char × Bool :=
  let gram_t := if cipher then cipherGram gram else gram
  if dsActive then
    synValLoop integer_labels simplecaptions cipher metaEmpty metaRow
      gram gram_t vals st
  else if simplecaptions then
    let d := wnNonempty gram
    (if d ∧ ¬st.2 then "An image of ".toList ++ gram
     else if d ∧ ¬pyFindHas st.1 gram then st.1 ++ ' ' :: gram
     else st.1, true)
  else st

/-- `for i, gram in enumerate(grams)` with the `strict`/`flag` break. -/
def synGramLoop (integer_labels simplecaptions cipher strict metaEmpty : Bool)
    (metaRow : Nat → Option (List (List Char)))
    (wnNonempty : List Char → Bool) (dsActive : Bool)
    (vals : List (List (List Char))) (grams : List (List Char))
    (st : List Char × Bool) : List Char × Bool :=
  grams.foldl
    (fun st gram =>
      if strict ∧ st.2 then st
      else synGramStep integer_labels simplecaptions cipher metaEmpty metaRow
        wnNonempty dsActive vals gram st) st

/-- The gram list built at word position `count`:
`" ".join(s[count:count+i+1])` for `i in range(ngram)` unless
`count + i - 1 > len(s)` (that guard, stated without integer
subtraction, skips exactly when `count + i > len(s) + 1`). -/
def buildGrams (words : List (List Char)) (ngram count : Nat) :
    List (List Char) :=
  ((List.range ngram).filter (fun i => decide (count + i ≤ words.length + 1))).map
    (fun i => pyJoinSpace ((words.drop count).take (i + 1)))

/-- `for count, word in enumerate(s)` with the `strict`/`flag` break. -/
def synWordLoop (integer_labels simplecaptions cipher strict metaEmpty : Bool)
    (metaRow : Nat → Option (List (List Char)))
    (wnNonempty : List Char → Bool) (dsActive : Bool)
    (vals : List (List (List Char))) (words : List (List Char))
    (ngram : Nat) (st : List Char × Bool) : List Char × Bool :=
  (words.enum).foldl
    (fun st cw =>
      if strict ∧ st.2 then st
      else synGramLoop integer_labels simplecaptions cipher strict metaEmpty
        metaRow wnNonempty dsActive vals (buildGrams words ngram cw.1) st) st

/-- `synset_ds(s, ngram, ds, cipher, simplecaptions, strict, shift,
integer_labels, metacaptions)` (data.py lines 541-619).  `shift = 0`
models a falsy shift (`None` or 0).  The external helpers live in `E`. -/
def synset_ds (E : ExtFns) (s : List Char) (ngram : Nat)
    (ds : List (List Char)) (cipher simplecaptions strict : Bool)
    (shift : Int) (integer_labels : Bool) : SynRet :=
  let words := (pySplitChar ' ' s).map E.lemmatize
  let vals := E.dsValGetter ds
  let st := synWordLoop integer_labels simplecaptions cipher strict
    E.metaEmpty E.metaRow E.wnNonempty (decide (ds ≠ [])) vals words ngram
    (pyJoinSpace words, false)
  let str_s := if st.1.length > 76 then st.1.take 75 else st.1
  if cipher ∨ simplecaptions ∨ integer_labels then
    .str (if st.2 then str_s else [])
  else if shift ≠ 0 then .str (shift_cipher str_s shift)
  else .bool st.2

/-- The specification-side predicate for C5: some n-gram (n ≤ 3) of the
lemmatized cleaned caption occurs in some class-name value list. -/
def ngramMatches (E : ExtFns) (cleaned : List Char)
    (ds : List (List Char)) : Bool :=
  let words := (pySplitChar ' ' cleaned).map E.lemmatize
  (words.enum).any (fun cw =>
    (buildGrams words 3 cw.1).any (fun g =>
      (E.dsValGetter ds).any (fun val => g ∈ val)))

/-- What `filter_preprocess_txt` can return: a string, the result of
`clean_integer_label`, or a raw Python bool (the `elif` branch can
assign `synset_ds`'s bool to `text`). -/
inductive FilterRet where
  | str (s : List Char)
  | label (r : PyLabelRet)
  | pybool (b : Bool)
  deriving DecidableEq

/-- `filter_preprocess_txt(text, ds, scrambled, dscipher,
simplecaptions, strict, shift, integer_labels, multiclass,
metacaptions)` (data.py lines 488-508).  `none` models the
`AttributeError` that `scramble_txt` raises on a non-string. -/
def filter_preprocess_txt (E : ExtFns) (text : List Char)
    (ds : List (List Char)) (scrambled dscipher simplecaptions strict : Bool)
    (shift : Int) (integer_labels multiclass : Bool) : Option FilterRet :=
  let res : FilterRet :=
    if ds ≠ [] then
      if integer_labels then
        let t := E.cleanCaptions text
        let r := synset_ds E t 3 ds false false strict 0 true
        if r.truthy then
          match r with
          | .str s =>
              .label (clean_integer_label E.parse (.str s) (!multiclass) strict ds)
          | .bool b => .pybool b
        else .str []
      else
        let t := E.cleanCaptions text
        let r := synset_ds E t 3 ds false false strict shift false
        if !r.truthy then .str [] else .str t
    else if dscipher ∨ simplecaptions ∨ strict ∨ shift ≠ 0 then
      let t := E.cleanCaptions text
      let r := synset_ds E t 3 ds dscipher simplecaptions strict shift
        integer_labels
      match r with
      | .str s => if s.isEmpty then .str [] else .str s
      | .bool b => if b then .pybool b else .str []
    else .str text
  if scrambled then
    match res with
    | .str s => some (.str (scramble_txt E s))
    | _ => none
  else some res

/-- `filter_no_caption_text(sample)` (data.py lines 866-873): the
sample is its `'text'` field (`none` when the key is missing); only a
string value compares equal to `""`. -/
def filter_no_caption_text (sample : Option FilterRet) : Bool :=
  match sample with
  | none => false
  | some v => if v = .str [] then false else true

/-- A concrete instantiation of the external helpers: captions are
already clean, the lemmatizer is the identity, each class name is its
own value list, wordnet is empty, the shuffle keeps the order, parsing
fails, and the metacaptions frame is empty. -/
def cexExt : ExtFns :=
  ⟨id, id, fun ds => ds.map (fun n => [n]), fun _ => false, id,
   fun _ => none, true, fun _ => none⟩

/-! ## Helper lemmas -/

/-- `Char.ofNat` and `Char.toNat` cancel below the surrogate range. -/
theorem charToNat_ofNat (v : Nat) (h : v < 128) : (Char.ofNat v).toNat = v := by
  have hv : v < 55296 ∨ 57343 < v ∧ v < 1114112 := Or.inl (by omega)
  simp [Char.ofNat, hv, Char.ofNatAux, Char.toNat, UInt32.toNat, BitVec.toNat_ofNatLt]

/-- On ASCII characters, one `shift_cipher` step agrees with the
case-preserving rotation described by the specification. -/
theorem charShift_eq_spec (c : Char) (k : Int) (h : c.toNat < 128) :
    (if pyIsAlpha c then shiftChar c k else c) = specRotChar k c := by
  by_cases hlo : 97 ≤ c.toNat ∧ c.toNat ≤ 122
  · have hA : pyIsAlpha c = true := by
      simp only [pyIsAlpha, Bool.or_eq_true, Bool.and_eq_true, decide_eq_true_eq]
      omega
    have hL : pyIsLower c = true := by
      simp only [pyIsLower, Bool.or_eq_true, Bool.and_eq_true, decide_eq_true_eq]
      omega
    rw [hA, if_pos rfl, shiftChar, specRotChar]
    simp only [hL, if_pos trivial, if_pos hlo]
    congr 1
    omega
  · by_cases hup : 65 ≤ c.toNat ∧ c.toNat ≤ 90
    · have hA : pyIsAlpha c = true := by
        simp only [pyIsAlpha, Bool.or_eq_true, Bool.and_eq_true, decide_eq_true_eq]
        omega
      have hL : pyIsLower c = false := by
        simp only [pyIsLower, Bool.or_eq_false_iff, Bool.and_eq_false_iff,
          decide_eq_false_iff_not]
        omega
      rw [hA, if_pos rfl, shiftChar, specRotChar]
      simp only [hL, Bool.false_eq_true, if_false, if_neg hlo, if_pos hup]
      congr 1
      omega
    · have hA : pyIsAlpha c = false := by
        simp only [pyIsAlpha, Bool.or_eq_false_iff, Bool.and_eq_false_iff,
          decide_eq_false_iff_not]
        omega
      rw [hA, specRotChar]
      simp only [Bool.false_eq_true, if_false, if_neg hlo, if_neg hup]

/-- On an ASCII character, shifting by `k` and then by `26 - k`
(`0 ≤ k ≤ 26`) restores the character. -/
theorem charShift_roundtrip (c : Char) (k : Int) (h : c.toNat < 128)
    (hk0 : 0 ≤ k) (hk26 : k ≤ 26) :
    (if pyIsAlpha (if pyIsAlpha c then shiftChar c k else c) then
      shiftChar (if pyIsAlpha c then shiftChar c k else c) (26 - k)
    else (if pyIsAlpha c then shiftChar c k else c)) = c := by
  by_cases hlo : 97 ≤ c.toNat ∧ c.toNat ≤ 122
  · have hA : pyIsAlpha c = true := by
      simp only [pyIsAlpha, Bool.or_eq_true, Bool.and_eq_true, decide_eq_true_eq]
      omega
    have hL : pyIsLower c = true := by
      simp only [pyIsLower, Bool.or_eq_true, Bool.and_eq_true, decide_eq_true_eq]
      omega
    rw [hA, if_pos rfl, shiftChar]
    simp only [hL, if_pos trivial]
    set M : Nat := (((c.toNat : Int) - 97 + k) % 26 + 97).toNat with hM
    have hMb : 97 ≤ M ∧ M ≤ 122 := by omega
    have hMv : (Char.ofNat M).toNat = M := charToNat_ofNat M (by omega)
    have hA2 : pyIsAlpha (Char.ofNat M) = true := by
      simp only [pyIsAlpha, Bool.or_eq_true, Bool.and_eq_true, decide_eq_true_eq, hMv]
      omega
    have hL2 : pyIsLower (Char.ofNat M) = true := by
      simp only [pyIsLower, Bool.or_eq_true, Bool.and_eq_true, decide_eq_true_eq, hMv]
      omega
    rw [hA2, if_pos rfl, shiftChar]
    simp only [hL2, if_pos trivial, hMv]
    have harg : ((((M : Int) - 97 + (26 - k)) % 26 + 97)).toNat = c.toNat := by omega
    rw [harg, Char.ofNat_toNat]
  · by_cases hup : 65 ≤ c.toNat ∧ c.toNat ≤ 90
    · have hA : pyIsAlpha c = true := by
        simp only [pyIsAlpha, Bool.or_eq_true, Bool.and_eq_true, decide_eq_true_eq]
        omega
      have hL : pyIsLower c = false := by
        simp only [pyIsLower, Bool.or_eq_false_iff, Bool.and_eq_false_iff,
          decide_eq_false_iff_not]
        omega
      rw [hA, if_pos rfl, shiftChar]
      simp only [hL, Bool.false_eq_true, if_false]
      set M : Nat := (((c.toNat : Int) - 65 + k) % 26 + 65).toNat with hM
      have hMb : 65 ≤ M ∧ M ≤ 90 := by omega
      have hMv : (Char.ofNat M).toNat = M := charToNat_ofNat M (by omega)
      have hA2 : pyIsAlpha (Char.ofNat M) = true := by
        simp only [pyIsAlpha, Bool.or_eq_true, Bool.and_eq_true, decide_eq_true_eq, hMv]
        omega
      have hL2 : pyIsLower (Char.ofNat M) = false := by
        simp only [pyIsLower, Bool.or_eq_false_iff, Bool.and_eq_false_iff,
          decide_eq_false_iff_not, hMv]
        omega
      rw [hA2, if_pos rfl, shiftChar]
      simp only [hL2, Bool.false_eq_true, if_false, hMv]
      have harg : ((((M : Int) - 65 + (26 - k)) % 26 + 65)).toNat = c.toNat := by omega
      rw [harg, Char.ofNat_toNat]
    · have hA : pyIsAlpha c = false := by
        simp only [pyIsAlpha, Bool.or_eq_false_iff, Bool.and_eq_false_iff,
          decide_eq_false_iff_not]
        omega
      rw [hA]
      simp only [Bool.false_eq_true, if_false, hA]

/-! ## Claim theorems -/

/-- C1 (counterexample): the claim fails for non-ASCII strings.  Python's
`isalpha`/`islower` are true for U+00E9 (`é`), which the mod-26
arithmetic collapses into `a`-`z`: with `k = 1` (so `0 ≤ k ≤ 26`),
`shift_cipher(shift_cipher("é", 1), 25)` is `"g"`, not `"é"`; and
shifting by 0 already changes the string. -/
theorem shift_cipher_unicode_cex :
    ((0 : Int) ≤ 1 ∧ (1 : Int) ≤ 26 ∧
      shift_cipher (shift_cipher [Char.ofNat 233] 1) (26 - 1) ≠ [Char.ofNat 233]) ∧
    shift_cipher [Char.ofNat 233] 0 ≠ [Char.ofNat 233] := by
  decide

/-- C1 (amended): for every ASCII string `s` and every integer `k`,
`shift_cipher(s, k)` has the same length as `s`, rotates every ASCII
alphabetic character forward by `k` modulo 26 within its own case and
leaves every other character unchanged, and for `0 ≤ k ≤ 26` the shift
by `k` followed by the shift by `26 - k` restores `s`. -/
theorem shift_cipher_ascii_correct (s : List Char) (k : Int)
    (hascii : ∀ c ∈ s, c.toNat < 128) :
    (shift_cipher s k).length = s.length ∧
    shift_cipher s k = s.map (specRotChar k) ∧
    (0 ≤ k → k ≤ 26 → shift_cipher (shift_cipher s k) (26 - k) = s) := by
  refine ⟨by simp [shift_cipher], ?_, ?_⟩
  · induction s with
    | nil => rfl
    | cons c t ih =>
        have hc : c.toNat < 128 := hascii c (by simp)
        have ht : ∀ d ∈ t, d.toNat < 128 := fun d hd => hascii d (by simp [hd])
        simp only [shift_cipher, List.map_cons] at *
        rw [charShift_eq_spec c k hc, ih ht]
  · intro hk0 hk26
    induction s with
    | nil => rfl
    | cons c t ih =>
        have hc : c.toNat < 128 := hascii c (by simp)
        have ht : ∀ d ∈ t, d.toNat < 128 := fun d hd => hascii d (by simp [hd])
        simp only [shift_cipher, List.map_cons] at *
        rw [charShift_roundtrip c k hc hk0 hk26, ih ht]

/-- C1 (witness): the amended statement at `s = "Hi!"`, `k = 3`. -/
theorem shift_cipher_ascii_witness :
    (∀ c ∈ ['H', 'i', '!'], c.toNat < 128) ∧
    shift_cipher (shift_cipher ['H', 'i', '!'] 3) (26 - 3) = ['H', 'i', '!'] :=
  ⟨by decide, (shift_cipher_ascii_correct ['H', 'i', '!'] 3 (by decide)).2.2
    (by decide) (by decide)⟩

/-- C2 (counterexample): the shared epoch is a C `int`; ctypes silently
truncates to 32 bits, so storing `2^31` reads back `-2^31`, refuting the
round trip "for every integer". -/
theorem sharedEpoch_int32_cex :
    (SharedEpoch.set_value ⟨0⟩ (2 ^ 31)).get_value ≠ 2 ^ 31 ∧
    (SharedEpoch.init (2 ^ 31)).get_value ≠ 2 ^ 31 := by
  constructor <;> decide

/-- C2 (amended): for every integer `e` in the signed 32-bit range,
`DataInfo.set_epoch e` on a `DataInfo` holding a `SharedEpoch` makes the
shared epoch read back `e`; `SharedEpoch.set_value` followed by
`get_value` returns `e`; and a `SharedEpoch` constructed with `e`
initially returns `e`. -/
theorem sharedEpoch_roundtrip_i32 (e : Int)
    (h1 : -(2 ^ 31) ≤ e) (h2 : e < 2 ^ 31) :
    (∀ d : DataInfo, ∀ s : SharedEpoch, d.shared_epoch = some s →
      (d.set_epoch e).shared_epoch.map SharedEpoch.get_value = some e) ∧
    (∀ s : SharedEpoch, (s.set_value e).get_value = e) ∧
    (SharedEpoch.init e).get_value = e := by
  have htr : truncI32 e = e := by
    unfold truncI32
    omega
  refine ⟨?_, ?_, ?_⟩
  · intro d s hs
    simp [DataInfo.set_epoch, hs, SharedEpoch.set_value, SharedEpoch.get_value, htr]
  · intro s
    simp [SharedEpoch.set_value, SharedEpoch.get_value, htr]
  · simp [SharedEpoch.init, SharedEpoch.get_value, htr]

/-- C2 (witness): the amended statement at `e = 7`. -/
theorem sharedEpoch_roundtrip_witness :
    (-(2 ^ 31) ≤ (7 : Int) ∧ (7 : Int) < 2 ^ 31) ∧
    (SharedEpoch.init 7).get_value = 7 :=
  ⟨by decide, (sharedEpoch_roundtrip_i32 7 (by decide) (by decide)).2.2⟩

/-- C6: `train_one_epoch` picks the loss with priority
SIMCLR > IntLoss > ClipLossIQE > ClipLossAlignUnif > ClipLoss. -/
theorem selectLoss_priority :
    ∀ sim_clr integer_labels iqe alignunif : Bool,
      (sim_clr = true → selectLoss sim_clr integer_labels iqe alignunif = .simclr) ∧
      (sim_clr = false → integer_labels = true →
        selectLoss sim_clr integer_labels iqe alignunif = .intloss) ∧
      (sim_clr = false → integer_labels = false → iqe = true →
        selectLoss sim_clr integer_labels iqe alignunif = .iqe) ∧
      (sim_clr = false → integer_labels = false → iqe = false → alignunif = true →
        selectLoss sim_clr integer_labels iqe alignunif = .alignunif) ∧
      (sim_clr = false → integer_labels = false → iqe = false → alignunif = false →
        selectLoss sim_clr integer_labels iqe alignunif = .clip) := by
  intro a b c d
  cases a <;> cases b <;> cases c <;> cases d <;> simp [selectLoss]

/-- C6 (witness): with only `sim_clr` set the SIMCLR loss is selected. -/
theorem selectLoss_priority_witness :
    selectLoss true false false false = .simclr :=
  (selectLoss_priority true false false false).1 rfl

/-- C4: `get_dataset_fn` dispatches on the dataset type: "webdataset",
"csv", "imagefolder" and "synthetic" return the respective loaders;
"auto" selects by the path's final extension (csv/tsv -> CSV loader,
tar -> webdataset loader, anything else raises ValueError); every other
dataset type raises ValueError. -/
theorem get_dataset_fn_dispatch (p : List Char) (dt : String) :
    get_dataset_fn p "webdataset" = .ok .wds ∧
    get_dataset_fn p "csv" = .ok .csv ∧
    get_dataset_fn p "imagefolder" = .ok .imagefolder ∧
    get_dataset_fn p "synthetic" = .ok .synthetic ∧
    ((pySplitChar '.' p).getLastD [] ∈ ["csv".toList, "tsv".toList] →
      get_dataset_fn p "auto" = .ok .csv) ∧
    ((pySplitChar '.' p).getLastD [] = "tar".toList →
      get_dataset_fn p "auto" = .ok .wds) ∧
    ((pySplitChar '.' p).getLastD [] ∉ ["csv".toList, "tsv".toList, "tar".toList] →
      ∃ msg, get_dataset_fn p "auto" = .error msg) ∧
    (dt ∉ ["webdataset", "csv", "imagefolder", "synthetic", "auto"] →
      ∃ msg, get_dataset_fn p dt = .error msg) := by
  have hauto : get_dataset_fn p "auto" =
      (if (pySplitChar '.' p).getLastD [] ∈ ["csv".toList, "tsv".toList] then
        Except.ok DatasetFn.csv
      else if (pySplitChar '.' p).getLastD [] ∈ ["tar".toList] then
        Except.ok DatasetFn.wds
      else Except.error
        ("Tried to figure out dataset type, but failed for extention "
          ++ String.mk ((pySplitChar '.' p).getLastD []) ++ ".")) := rfl
  refine ⟨rfl, rfl, rfl, rfl, ?_, ?_, ?_, ?_⟩
  · intro hext
    rw [hauto, if_pos hext]
  · intro hext
    rw [hauto, if_neg (by rw [hext]; decide), if_pos (by rw [hext]; decide)]
  · intro hext
    simp only [List.mem_cons, List.not_mem_nil, or_false, not_or] at hext
    exact ⟨_, by
      rw [hauto,
        if_neg (by
          intro hmem
          rcases List.mem_cons.mp hmem with h | hmem2
          · exact hext.1 h
          · rcases List.mem_cons.mp hmem2 with h | h3
            · exact hext.2.1 h
            · exact absurd h3 (List.not_mem_nil _)),
        if_neg (by
          intro hmem
          rcases List.mem_cons.mp hmem with h | h2
          · exact hext.2.2 h
          · exact absurd h2 (List.not_mem_nil _))]⟩
  · intro hdt
    simp only [List.mem_cons, List.not_mem_nil, or_false, not_or] at hdt
    exact ⟨_, by
      show (if dt = "webdataset" then _ else _) = _
      rw [if_neg hdt.1, if_neg (show ¬ dt ∈ ["csv"] by simp [hdt.2.1]),
        if_neg hdt.2.2.1, if_neg hdt.2.2.2.1, if_neg hdt.2.2.2.2]⟩

/-- C4 (witness): the "auto" tar case and an unsupported dataset type. -/
theorem get_dataset_fn_dispatch_witness :
    ((pySplitChar '.' "x.tar".toList).getLastD [] = "tar".toList ∧
      get_dataset_fn "x.tar".toList "auto" = .ok .wds) ∧
    ("foo" ∉ ["webdataset", "csv", "imagefolder", "synthetic", "auto"] ∧
      ∃ msg, get_dataset_fn "x.tar".toList "foo" = .error msg) :=
  ⟨⟨by decide, (get_dataset_fn_dispatch "x.tar".toList "foo").2.2.2.2.2.1 (by decide)⟩,
   ⟨by decide, (get_dataset_fn_dispatch "x.tar".toList "foo").2.2.2.2.2.2.2 (by decide)⟩⟩

/-- C8: `zero_shot_eval` returns the empty results dictionary exactly
when no recognized dataset key is present, or the zero-shot frequency is
0, or the epoch is neither a multiple of the frequency nor the final
epoch; otherwise it proceeds to evaluate. -/
theorem zero_shot_eval_guard (dataKeys : List String)
    (freq epoch epochs : Int) :
    zero_shot_eval_proceeds dataKeys freq epoch epochs = false ↔
      ((∀ key ∈ recognizedEvalKeys, key ∉ dataKeys) ∨ freq = 0 ∨
        (¬ freq ∣ epoch ∧ epoch ≠ epochs)) := by
  have hdvd : epoch % freq = 0 ↔ freq ∣ epoch :=
    ⟨Int.dvd_of_emod_eq_zero, Int.emod_eq_zero_of_dvd⟩
  have hkeys : (∀ key ∈ recognizedEvalKeys, key ∉ dataKeys) ↔
      ("imagenet-val" ∉ dataKeys ∧ "imagenet-v2" ∉ dataKeys ∧
        "imagenet-r" ∉ dataKeys ∧ "imagenet-s" ∉ dataKeys ∧
        "imagenet-a" ∉ dataKeys ∧ "inat2021" ∉ dataKeys ∧
        "stanfordcars" ∉ dataKeys ∧ "flowers" ∉ dataKeys ∧
        "food" ∉ dataKeys ∧ "objectnet" ∉ dataKeys ∧
        "insecta" ∉ dataKeys) := by
    simp [recognizedEvalKeys, and_assoc]
  rw [hkeys]
  unfold zero_shot_eval_proceeds
  split
  · simp_all
  · split
    · simp_all
    · split
      · rename_i hnone hfreq hmod
        simp only [eq_self_iff_true, true_iff]
        right; right
        exact ⟨fun hd => hmod.1 (hdvd.mpr hd), hmod.2⟩
      · rename_i hnone hfreq hmod
        simp only [Bool.true_eq_false, false_iff, not_or]
        refine ⟨hnone, hfreq, ?_⟩
        intro hcon
        rcases not_and_or.mp hmod with h | h
        · exact hcon.1 (hdvd.mp (not_not.mp h))
        · exact hcon.2 (not_not.mp h)

/-- C9: for every token list and integer `k` with `0 < k < 75`,
`token_trunc_func` returns a 77-element tensor starting with 49406,
holding at most `k` non-special tokens, then the end token 49407 and
zero padding; for `k = 0` (the only falsy integer) or `k ≥ 75` it
returns the input unchanged. -/
theorem token_trunc_spec (texts : List Int) (k : Int) :
    (0 < k → k < 75 →
      ∃ body,
        token_trunc_func texts k =
          some (49406 :: body ++ 49407 :: List.replicate (75 - body.length) 0) ∧
        body = (texts.filter (fun t => t ≠ 49406 && t ≠ 0 && t ≠ 49407)).take k.toNat ∧
        body.length ≤ k.toNat ∧
        (∀ t ∈ body, t ≠ 49406 ∧ t ≠ 0 ∧ t ≠ 49407) ∧
        (49406 :: body ++ 49407 :: List.replicate (75 - body.length) 0).length = 77) ∧
    (k = 0 ∨ k ≥ 75 → token_trunc_func texts k = some texts) := by
  constructor
  · intro hk0 hk75
    have hne : ¬(k = 0 ∨ k ≥ 75) := by omega
    set tc := texts.filter (fun t => t ≠ 49406 && t ≠ 0 && t ≠ 49407) with htc
    set body := tc.take k.toNat with hbody
    have hbl : body.length ≤ k.toNat := by
      rw [hbody, List.length_take]
      omega
    have hbl74 : body.length ≤ 74 := by omega
    refine ⟨body, ?_, rfl, hbl, ?_, ?_⟩
    · simp only [token_trunc_func, if_neg hne, ← htc]
      rw [if_pos (le_of_lt hk0), ← hbody]
      have hlen : (49406 :: body ++ [49407]).length = body.length + 2 := by
        simp
      rw [if_pos (by simp [hlen]; omega)]
      congr 1
      have h77 : 77 - (49406 :: (body ++ [49407])).length = 75 - body.length := by
        simp
      simp only [List.cons_append, List.append_assoc, List.singleton_append,
        List.nil_append]
      rw [h77]
    · intro t ht
      have h1 : t ∈ tc := List.mem_of_mem_take ht
      have h2 := List.of_mem_filter h1
      simp only [Bool.and_eq_true, decide_eq_true_eq, ne_eq] at h2
      exact ⟨h2.1.1, h2.1.2, h2.2⟩
    · simp
      omega
  · intro hk
    simp only [token_trunc_func, if_pos hk]

/-- C9 (witness): the truncation shape at `k = 2` and the identity case
at `k = 0`. -/
theorem token_trunc_witness :
    ((0 : Int) < 2 ∧ (2 : Int) < 75 ∧
      ∃ body,
        token_trunc_func [49406, 5, 7, 9, 49407] 2 =
          some (49406 :: body ++ 49407 :: List.replicate (75 - body.length) 0) ∧
        body = (([49406, 5, 7, 9, 49407] : List Int).filter
          (fun t => t ≠ 49406 && t ≠ 0 && t ≠ 49407)).take (2 : Int).toNat ∧
        body.length ≤ (2 : Int).toNat ∧
        (∀ t ∈ body, t ≠ 49406 ∧ t ≠ 0 ∧ t ≠ 49407) ∧
        (49406 :: body ++ 49407 :: List.replicate (75 - body.length) 0).length = 77) ∧
    (((0 : Int) = 0 ∨ (0 : Int) ≥ 75) ∧
      token_trunc_func [1, 2] 0 = some [1, 2]) :=
  ⟨⟨by decide, by decide,
    (token_trunc_spec [49406, 5, 7, 9, 49407] 2).1 (by decide) (by decide)⟩,
   ⟨Or.inl rfl, (token_trunc_spec [1, 2] 0).2 (Or.inl rfl)⟩⟩

/-- C10: with a nonempty class list `ds`, an integer label below 0 or
above `len(ds) - 1` is mapped to 0; singleclass mode yields a scalar
tensor holding the (possibly remapped) label, otherwise a 25-long
tensor whose first entry is the label and whose other entries are -1;
a string that parses to no integers, and any other-typed input, yield
the empty string. -/
theorem clean_integer_label_spec (parse : List Char → Option (List Int))
    (singleclass strict : Bool) (ds : List (List Char)) (hds : ds ≠ []) :
    (∀ n : Int, (n < 0 ∨ n > (ds.length : Int) - 1) →
      clean_integer_label parse (.int n) true strict ds = .scalar 0 ∧
      clean_integer_label parse (.int n) false strict ds =
        .tensor (0 :: List.replicate 24 (-1))) ∧
    (∀ n : Int, 0 ≤ n → n ≤ (ds.length : Int) - 1 →
      clean_integer_label parse (.int n) true strict ds = .scalar n ∧
      clean_integer_label parse (.int n) false strict ds =
        .tensor (n :: List.replicate 24 (-1))) ∧
    (∀ s : List Char, (parse s = none ∨ parse s = some []) →
      clean_integer_label parse (.str s) singleclass strict ds = .emptyStr) ∧
    clean_integer_label parse .other singleclass strict ds = .emptyStr := by
  have hlen : ¬ ds.length = 0 := by
    simpa [List.length_eq_zero] using hds
  refine ⟨?_, ?_, ?_, ?_⟩
  · intro n hn
    constructor <;> simp [clean_integer_label, hlen, if_pos hn]
  · intro n hn0 hn1
    have hn : ¬(n < 0 ∨ n > (ds.length : Int) - 1) := by omega
    constructor <;> simp [clean_integer_label, hlen, if_neg hn]
  · intro s hp
    by_cases hs : s = []
    · simp [clean_integer_label, hs]
    · rcases hp with h | h <;> simp [clean_integer_label, hlen, hs, h]
  · rfl

/-- C10 (witness): out-of-range integer label and an unparseable string
with a one-class dataset. -/
theorem clean_integer_label_witness :
    ([['x']] : List (List Char)) ≠ [] ∧
    ((5 : Int) < 0 ∨ (5 : Int) > ((([['x']] : List (List Char))).length : Int) - 1) ∧
    clean_integer_label (fun _ => none) (.int 5) true false [['x']] = .scalar 0 ∧
    clean_integer_label (fun _ => none) (.str ['a']) true false [['x']] = .emptyStr := by
  have h := clean_integer_label_spec (fun _ => none) true false [['x']] (by decide)
  exact ⟨by decide, by decide,
    (h.1 5 (by decide)).1, h.2.2.1 ['a'] (Or.inl rfl)⟩

/-- Every element of a list is at most its `foldr max 0`. -/
theorem le_foldr_max (k : Nat) (l : List Nat) (h : k ∈ l) :
    k ≤ l.foldr Nat.max 0 := by
  induction l with
  | nil => cases h
  | cons a t ih =>
      rw [List.foldr_cons]
      rcases List.mem_cons.mp h with rfl | ht
      · exact Nat.le_max_left _ _
      · exact le_trans (ih ht) (Nat.le_max_right _ _)

/-- The top-k index list has no duplicates. -/
theorem topkIdx_nodup (row : List ℚ) (m : Nat) : (topkIdx row m).Nodup := by
  unfold topkIdx
  exact (List.take_sublist _ _).nodup
    ((List.perm_insertionSort _ _).symm.nodup (List.nodup_range _))

/-- Taking `k ≤ m` of the top-m index list gives the top-k index list. -/
theorem topkIdx_take (row : List ℚ) (k m : Nat) (h : k ≤ m) :
    (topkIdx row m).take k = topkIdx row k := by
  unfold topkIdx
  rw [List.take_take, Nat.min_eq_left h]

/-- Counting the target among the first `k` top indices equals the
membership indicator (the top indices are pairwise distinct). -/
theorem count_take_topkIdx (row : List ℚ) (t k m : Nat) (h : k ≤ m) :
    ((topkIdx row m).take k).count t =
      if t ∈ topkIdx row k then 1 else 0 := by
  rw [topkIdx_take row k m h]
  by_cases hm : t ∈ topkIdx row k
  · rw [if_pos hm]
    exact List.count_eq_one_of_mem (topkIdx_nodup row k) hm
  · rw [if_neg hm]
    exact List.count_eq_zero_of_not_mem hm

/-- Summing an indicator function over a list counts the satisfying
elements. -/
theorem sum_indicator_eq_length_filter {α : Type} (p : α → Bool)
    (f : α → Nat) (l : List α)
    (hf : ∀ a ∈ l, f a = if p a then 1 else 0) :
    (l.map f).sum = (l.filter p).length := by
  induction l with
  | nil => rfl
  | cons a tl ih =>
      rw [List.map_cons, List.sum_cons, List.filter_cons,
        hf a (by simp), ih (fun x hx => hf x (by simp [hx]))]
      by_cases hp : p a = true
      · simp [hp, Nat.add_comm]
      · simp [hp]

/-- Each entry of `accuracy` is the count of rows whose target is among
the k best classes. -/
theorem accuracy_eq_counts (output : List (List ℚ)) (target : List Nat)
    (topk : List Nat) :
    accuracy output target topk = topk.map (topkCorrectCount output target) := by
  simp only [accuracy]
  refine List.map_congr_left ?_
  intro k hkmem
  have hk : k ≤ topk.foldr Nat.max 0 := le_foldr_max k topk hkmem
  rw [List.map_map, List.zip_map_left, List.map_map]
  unfold topkCorrectCount
  refine sum_indicator_eq_length_filter _ _ _ ?_
  intro rt _
  simp only [Prod.map_fst, Prod.map_snd, Function.comp_apply, id_eq]
  rw [count_take_topkIdx rt.1 rt.2 k _ hk]
  simp

/-- The accumulation loop of `run` adds up exactly the correct counts
and sample counts. -/
theorem zsRun_foldl_spec (ncls : Nat)
    (batches : List (List (List ℚ) × List Nat)) :
    ∀ a b c : ℚ,
      batches.foldl (zsStep ncls) (a, b, c) =
        (a + (totalCorrect batches 1 : Nat),
         b + (totalCorrect batches (min 5 ncls) : Nat),
         c + (totalN batches : Nat)) := by
  induction batches with
  | nil =>
      intro a b c
      simp [totalCorrect, totalN]
  | cons bt rest ih =>
      intro a b c
      rw [List.foldl_cons]
      have hacc : accuracy bt.1 bt.2 [1, min 5 ncls] =
          [topkCorrectCount bt.1 bt.2 1,
           topkCorrectCount bt.1 bt.2 (min 5 ncls)] := by
        rw [accuracy_eq_counts]
        rfl
      have hstep : zsStep ncls (a, b, c) bt =
          (a + (topkCorrectCount bt.1 bt.2 1 : Nat),
           b + (topkCorrectCount bt.1 bt.2 (min 5 ncls) : Nat),
           c + (bt.1.length : Nat)) := by
        simp [zsStep, hacc]
      rw [hstep, ih]
      simp only [totalCorrect, totalN, List.map_cons, List.sum_cons]
      push_cast
      refine Prod.ext ?_ (Prod.ext ?_ ?_) <;> simp <;> ring

/-- C7: each entry of `accuracy(output, target, topk)` is the number of
rows whose target index is among the k highest-scoring classes of that
row, and `run` returns top1 and top5 equal to these correct counts
summed over the batches and divided by the total number of evaluated
samples. -/
theorem accuracy_run_spec (output : List (List ℚ)) (target : List Nat)
    (topk : List Nat) (batches : List (List (List ℚ) × List Nat))
    (ncls : Nat) (hn : 0 < totalN batches) :
    accuracy output target topk = topk.map (topkCorrectCount output target) ∧
    zsRun batches ncls =
      ((totalCorrect batches 1 : ℚ) / (totalN batches : ℚ),
       (totalCorrect batches (min 5 ncls) : ℚ) / (totalN batches : ℚ)) := by
  refine ⟨accuracy_eq_counts output target topk, ?_⟩
  unfold zsRun
  rw [zsRun_foldl_spec]
  simp

/-- C7 (witness): a single two-sample batch with two classes. -/
theorem accuracy_run_witness :
    0 < totalN [([[(1 : ℚ), 2], [3, 1]], [1, 0])] ∧
    (accuracy [[(1 : ℚ), 2], [3, 1]] [1, 0] [1] =
        [1].map (topkCorrectCount [[(1 : ℚ), 2], [3, 1]] [1, 0]) ∧
      zsRun [([[(1 : ℚ), 2], [3, 1]], [1, 0])] 2 =
        ((totalCorrect [([[(1 : ℚ), 2], [3, 1]], [1, 0])] 1 : ℚ) /
          (totalN [([[(1 : ℚ), 2], [3, 1]], [1, 0])] : ℚ),
         (totalCorrect [([[(1 : ℚ), 2], [3, 1]], [1, 0])] (min 5 2) : ℚ) /
          (totalN [([[(1 : ℚ), 2], [3, 1]], [1, 0])] : ℚ))) :=
  ⟨by decide,
   accuracy_run_spec [[(1 : ℚ), 2], [3, 1]] [1, 0] [1]
     [([[(1 : ℚ), 2], [3, 1]], [1, 0])] 2 (by decide)⟩

/-- C3: with a non-negative configured seed, two runs of
`detshuffle2.run` over the same shard list, whose instances agree on
seed, bufsize and initial and whose `SharedEpoch` objects hold the same
epoch value, produce identical output orderings — independently of the
worker seeds — and the generator is seeded with `seed + epoch`. -/
theorem detshuffle2_deterministic {σ α : Type} (seedFn : Int → σ)
    (randint : σ → Nat → Nat × σ) (d1 d2 : detshuffle2)
    (se1 se2 : SharedEpoch) (ws1 ws2 : Int) (src : List α)
    (hseed : d1.seed = d2.seed) (hpos : 0 ≤ d1.seed)
    (hbuf : d1.bufsize = d2.bufsize) (hinit : d1.initial = d2.initial)
    (he1 : d1.epoch = .shared se1) (he2 : d2.epoch = .shared se2)
    (hval : se1.get_value = se2.get_value) :
    (detshuffle2.run seedFn randint d1 ws1 src).1 =
      (detshuffle2.run seedFn randint d2 ws2 src).1 ∧
    d1.seedUsed ws1 se1.get_value = d1.seed + se1.get_value := by
  constructor
  · simp only [detshuffle2.run, detshuffle2.epochStep, he1, he2,
      detshuffle2.seedUsed]
    rw [if_neg (by omega : ¬ d1.seed < 0), if_neg (by omega : ¬ d2.seed < 0)]
    rw [hseed, hbuf, hinit, hval]
  · simp only [detshuffle2.seedUsed]
    rw [if_neg (by omega : ¬ d1.seed < 0)]

/-- C3 (witness): two runs with equal seed 5, equal shared epoch 2 and
different worker seeds over the shard list `[10, 20, 30]`, with a
concrete generator model. -/
theorem detshuffle2_deterministic_witness :
    (0 : Int) ≤ (detshuffle2.mk 3 1 5 (.shared ⟨2⟩)).seed ∧
    (detshuffle2.run Int.toNat (fun g n => (g % (n + 1), g + 1))
        (detshuffle2.mk 3 1 5 (.shared ⟨2⟩)) 11 ([10, 20, 30] : List Int)).1 =
      (detshuffle2.run Int.toNat (fun g n => (g % (n + 1), g + 1))
        (detshuffle2.mk 3 1 5 (.shared ⟨2⟩)) 99 ([10, 20, 30] : List Int)).1 ∧
    (detshuffle2.mk 3 1 5 (.shared ⟨2⟩)).seedUsed 11
        ((⟨2⟩ : SharedEpoch).get_value) =
      (detshuffle2.mk 3 1 5 (.shared ⟨2⟩)).seed + (⟨2⟩ : SharedEpoch).get_value := by
  have h := detshuffle2_deterministic Int.toNat
    (fun g n => (g % (n + 1), g + 1)) (detshuffle2.mk 3 1 5 (.shared ⟨2⟩))
    (detshuffle2.mk 3 1 5 (.shared ⟨2⟩)) ⟨2⟩ ⟨2⟩ 11 99
    ([10, 20, 30] : List Int) rfl (by decide) rfl rfl rfl rfl rfl
  exact ⟨by decide, h.1, h.2⟩

/-- A `gram_t in val` match always leaves the flag set (the only
branch that does not set it explicitly, the integer-labels `continue`,
is reachable only with the flag already true). -/
theorem synMatchBody_snd (il sc ci me : Bool)
    (mr : Nat → Option (List (List Char))) (g gt : List Char) (idx : Nat)
    (st : List Char × Bool) :
    (synMatchBody il sc ci me mr g gt idx st).2 = true := by
  unfold synMatchBody
  by_cases h1 : il = true ∧ ¬ st.2 = true
  · rw [if_pos h1]
    simp [synCommonTail]
  · rw [if_neg h1]
    by_cases h2 : il = true
    · rw [if_pos h2]
      show st.2 = true
      by_cases hf : st.2 = true
      · exact hf
      · exact absurd ⟨h2, hf⟩ h1
    · rw [if_neg h2]
      simp [synCommonTail]

/-- The flag after the value loop is the incoming flag or-ed with the
existence of a matching value list. -/
theorem synValFold_snd (il sc ci me : Bool)
    (mr : Nat → Option (List (List Char))) (g gt : List Char)
    (L : List (Nat × List (List Char))) :
    ∀ st : List Char × Bool,
      ((L.foldl (fun st iv =>
          if gt ∈ iv.2 then
            synMatchBody il sc ci me mr g gt iv.1 st
          else st) st).2)
        = (st.2 || L.any (fun iv => decide (gt ∈ iv.2))) := by
  induction L with
  | nil =>
      intro st
      simp
  | cons iv L ih =>
      intro st
      rw [List.foldl_cons, List.any_cons]
      by_cases hm : gt ∈ iv.2
      · rw [if_pos hm, ih]
        simp [synMatchBody_snd, hm]
      · rw [if_neg hm, ih]
        simp [hm]

/-- `any` over an enumerated list that only inspects the payload. -/
theorem any_enumFrom_snd {α : Type} (p : α → Bool) (l : List α) :
    ∀ n, ((l.enumFrom n).any (fun iv => p iv.2)) = l.any p := by
  induction l with
  | nil =>
      intro n
      rfl
  | cons a t ih =>
      intro n
      simp [List.enumFrom, List.any_cons, ih]

/-- `any` over `enum` that only inspects the payload. -/
theorem any_enum_snd {α : Type} (p : α → Bool) (l : List α) :
    ((l.enum).any (fun iv => p iv.2)) = l.any p := by
  simpa [List.enum] using any_enumFrom_snd p l 0

/-- Flag formula for the value loop. -/
theorem synValLoop_snd (il sc ci me : Bool)
    (mr : Nat → Option (List (List Char))) (g gt : List Char)
    (vals : List (List (List Char))) (st : List Char × Bool) :
    (synValLoop il sc ci me mr g gt vals st).2
      = (st.2 || vals.any (fun v => decide (gt ∈ v))) := by
  unfold synValLoop
  rw [synValFold_snd]
  exact congrArg (fun x => st.2 || x)
    (any_enum_snd (fun v => decide (gt ∈ v)) vals)

/-- Flag formula for one gram step when a dataset is active. -/
theorem synGramStep_snd_ds (il sc ci me : Bool)
    (mr : Nat → Option (List (List Char))) (wn : List Char → Bool)
    (vals : List (List (List Char))) (gram : List Char)
    (st : List Char × Bool) :
    (synGramStep il sc ci me mr wn true vals gram st).2
      = (st.2 || vals.any
          (fun v => decide ((if ci then cipherGram gram else gram) ∈ v))) := by
  show (synValLoop il sc ci me mr gram
    (if ci then cipherGram gram else gram) vals st).2 = _
  rw [synValLoop_snd]

/-- Flag formula for the gram loop when a dataset is active. -/
theorem synGramLoop_snd_ds (il sc ci strict me : Bool)
    (mr : Nat → Option (List (List Char))) (wn : List Char → Bool)
    (vals : List (List (List Char))) (grams : List (List Char)) :
    ∀ st, (synGramLoop il sc ci strict me mr wn true vals grams st).2
      = (st.2 || grams.any (fun g => vals.any
          (fun v => decide ((if ci then cipherGram g else g) ∈ v)))) := by
  induction grams with
  | nil =>
      intro st
      simp [synGramLoop]
  | cons g gs ih =>
      intro st
      show (synGramLoop il sc ci strict me mr wn true vals gs
        (if strict ∧ st.2 then st
         else synGramStep il sc ci me mr wn true vals g st)).2 = _
      rw [List.any_cons]
      by_cases hb : strict = true ∧ st.2 = true
      · rw [if_pos hb, ih]
        simp [hb.2]
      · rw [if_neg hb, ih, synGramStep_snd_ds]
        simp [Bool.or_assoc]

/-- Flag formula for the word loop when a dataset is active. -/
theorem synWordFold_snd (il sc ci strict me : Bool)
    (mr : Nat → Option (List (List Char))) (wn : List Char → Bool)
    (vals : List (List (List Char))) (words : List (List Char))
    (ngram : Nat) (L : List (Nat × List Char)) :
    ∀ st, ((L.foldl (fun st cw =>
        if strict ∧ st.2 then st
        else synGramLoop il sc ci strict me mr wn true vals
          (buildGrams words ngram cw.1) st) st).2)
      = (st.2 || L.any (fun cw => (buildGrams words ngram cw.1).any
          (fun g => vals.any
            (fun v => decide ((if ci then cipherGram g else g) ∈ v))))) := by
  induction L with
  | nil =>
      intro st
      simp
  | cons cw L ih =>
      intro st
      rw [List.foldl_cons, List.any_cons]
      by_cases hb : strict = true ∧ st.2 = true
      · rw [if_pos hb, ih]
        simp [hb.2]
      · rw [if_neg hb, ih, synGramLoop_snd_ds]
        simp [Bool.or_assoc]

/-- Flag formula for `synWordLoop` when a dataset is active. -/
theorem synWordLoop_snd_ds (il sc ci strict me : Bool)
    (mr : Nat → Option (List (List Char))) (wn : List Char → Bool)
    (vals : List (List (List Char))) (words : List (List Char))
    (ngram : Nat) (st : List Char × Bool) :
    (synWordLoop il sc ci strict me mr wn true vals words ngram st).2
      = (st.2 || (words.enum).any (fun cw =>
          (buildGrams words ngram cw.1).any (fun g => vals.any
            (fun v => decide ((if ci then cipherGram g else g) ∈ v))))) := by
  unfold synWordLoop
  rw [synWordFold_snd]

/-- With cipher, simplecaptions and integer_labels off and `shift`
falsy, `synset_ds` returns exactly the Boolean n-gram-match flag. -/
theorem synset_ds_flag (E : ExtFns) (s : List Char) (ds : List (List Char))
    (strict : Bool) (hds : ds ≠ []) :
    synset_ds E s 3 ds false false strict 0 false
      = .bool (ngramMatches E s ds) := by
  simp only [synset_ds, ngramMatches]
  rw [if_neg (by simp), if_neg (by simp)]
  have hact : decide (ds ≠ []) = true := by
    simp [hds]
  rw [hact, synWordLoop_snd_ds]
  simp

/-- Characters of a split field are characters of the split string. -/
theorem mem_of_mem_pySplit (sep c : Char) :
    ∀ (s w : List Char), w ∈ pySplitChar sep s → c ∈ w → c ∈ s := by
  intro s
  induction s with
  | nil =>
      intro w hw hc
      simp only [pySplitChar, List.mem_singleton] at hw
      subst hw
      cases hc
  | cons a t ih =>
      intro w hw hc
      simp only [pySplitChar] at hw
      by_cases ha : a = sep
      · rw [if_pos ha] at hw
        rcases List.mem_cons.mp hw with rfl | hw2
        · cases hc
        · exact List.mem_cons_of_mem a (ih w hw2 hc)
      · rw [if_neg ha] at hw
        cases hr : pySplitChar sep t with
        | nil =>
            rw [hr] at hw
            simp only [List.mem_singleton] at hw
            subst hw
            simp only [List.mem_singleton] at hc
            subst hc
            exact List.mem_cons_self _ _
        | cons w0 ws =>
            rw [hr] at hw
            rcases List.mem_cons.mp hw with rfl | hw2
            · rcases List.mem_cons.mp hc with rfl | hc2
              · exact List.mem_cons_self _ _
              · refine List.mem_cons_of_mem a (ih w0 ?_ hc2)
                rw [hr]
                exact List.mem_cons_self _ _
            · refine List.mem_cons_of_mem a (ih w ?_ hc)
              rw [hr]
              exact List.mem_cons_of_mem _ hw2

/-- A character of a member list is a character of the joined string. -/
theorem mem_pyJoin_of_mem (c : Char) :
    ∀ (ws : List (List Char)) (w : List Char), w ∈ ws → c ∈ w →
      c ∈ pyJoinSpace ws := by
  intro ws
  induction ws with
  | nil =>
      intro w hw _
      cases hw
  | cons w0 rest ih =>
      intro w hw hc
      cases rest with
      | nil =>
          rcases List.mem_cons.mp hw with rfl | h
          · simpa [pyJoinSpace] using hc
          · cases h
      | cons x xs =>
          show c ∈ w0 ++ ' ' :: pyJoinSpace (x :: xs)
          rcases List.mem_cons.mp hw with rfl | h
          · exact List.mem_append_left _ hc
          · exact List.mem_append_right _
              (List.mem_cons_of_mem _ (ih w h hc))

/-- A character of the joined string is a separator space or a
character of some member list. -/
theorem mem_pyJoin_inv (c : Char) :
    ∀ ws : List (List Char), c ∈ pyJoinSpace ws →
      c = ' ' ∨ ∃ w ∈ ws, c ∈ w := by
  intro ws
  induction ws with
  | nil =>
      intro hc
      cases hc
  | cons w0 rest ih =>
      cases rest with
      | nil =>
          intro hc
          right
          exact ⟨w0, by simp, by simpa [pyJoinSpace] using hc⟩
      | cons x xs =>
          intro hc
          have hc2 : c ∈ w0 ++ ' ' :: pyJoinSpace (x :: xs) := hc
          rcases List.mem_append.mp hc2 with h | h
          · right
            exact ⟨w0, by simp, h⟩
          · rcases List.mem_cons.mp h with rfl | h2
            · left
              rfl
            · rcases ih h2 with h3 | ⟨w, hw, hcw⟩
              · left
                exact h3
              · right
                exact ⟨w, List.mem_cons_of_mem _ hw, hcw⟩

/-- An element not satisfying the predicate survives `dropWhile`. -/
theorem mem_dropWhile_of_neg {α : Type} (p : α → Bool) (c : α) :
    ∀ s : List α, c ∈ s → p c = false → c ∈ s.dropWhile p := by
  intro s
  induction s with
  | nil =>
      intro h _
      cases h
  | cons a t ih =>
      intro hc hp
      rw [List.dropWhile_cons]
      by_cases hpa : p a = true
      · rw [if_pos hpa]
        rcases List.mem_cons.mp hc with rfl | h
        · rw [hp] at hpa
          cases hpa
        · exact ih h hp
      · rw [if_neg hpa]
        exact hc

/-- A string containing a non-whitespace character does not strip to
the empty string. -/
theorem pyStrip_ne_nil (c : Char) (s : List Char) (hc : c ∈ s)
    (hns : pyIsSpace c = false) : pyStrip s ≠ [] := by
  unfold pyStrip
  refine List.ne_nil_of_mem (a := c) ?_
  rw [List.mem_reverse]
  refine mem_dropWhile_of_neg pyIsSpace c _ ?_ hns
  rw [List.mem_reverse]
  exact mem_dropWhile_of_neg pyIsSpace c _ hc hns

/-- Scrambling the empty caption yields the empty caption. -/
theorem scramble_nil (E : ExtFns) (hshuffle : ∀ l, (E.shuffleFn l).Perm l) :
    scramble_txt E [] = [] := by
  unfold scramble_txt
  have h1 : pySplitChar ' ' [] = [[]] := rfl
  rw [h1, List.perm_singleton.mp (hshuffle [[]])]
  rfl

/-- Scrambling a caption one of whose fields holds a non-whitespace
character yields a nonempty string. -/
theorem scramble_ne_nil (E : ExtFns) (hshuffle : ∀ l, (E.shuffleFn l).Perm l)
    (t w : List Char) (c : Char) (hw : w ∈ pySplitChar ' ' t) (hc : c ∈ w)
    (hns : pyIsSpace c = false) : scramble_txt E t ≠ [] := by
  unfold scramble_txt
  refine pyStrip_ne_nil c _ ?_ hns
  refine mem_pyJoin_of_mem c _ w ?_ hc
  exact ((hshuffle (pySplitChar ' ' t)).mem_iff).mpr hw

/-- An n-gram match forces a non-blank field in the cleaned caption
(given that class values are not blank and the lemmatizer keeps blank
tokens blank). -/
theorem match_gives_nonblank (E : ExtFns) (cleaned : List Char)
    (ds : List (List Char))
    (hvals : ∀ val ∈ E.dsValGetter ds, ∀ v ∈ val, ∃ ch ∈ v, pyIsSpace ch = false)
    (hlem : ∀ w, (∀ ch ∈ w, pyIsSpace ch = true) →
      ∀ ch ∈ E.lemmatize w, pyIsSpace ch = true)
    (hM : ngramMatches E cleaned ds = true) :
    ∃ w ∈ pySplitChar ' ' cleaned, ∃ ch ∈ w, pyIsSpace ch = false := by
  simp only [ngramMatches] at hM
  rcases List.any_eq_true.mp hM with ⟨cw, _hcw, h2⟩
  rcases List.any_eq_true.mp h2 with ⟨g, hg, h3⟩
  rcases List.any_eq_true.mp h3 with ⟨val, hval, h4⟩
  have hgval : g ∈ val := of_decide_eq_true h4
  rcases hvals val hval g hgval with ⟨ch, hch, hchns⟩
  simp only [buildGrams] at hg
  rcases List.mem_map.mp hg with ⟨i, _hi, hgi⟩
  rw [← hgi] at hch
  rcases mem_pyJoin_inv ch _ hch with hsp | ⟨w, hwslice, hchw⟩
  · rw [hsp] at hchns
    simp [pyIsSpace] at hchns
  · have hwmem : w ∈ (pySplitChar ' ' cleaned).map E.lemmatize :=
      List.mem_of_mem_drop (List.mem_of_mem_take hwslice)
    rcases List.mem_map.mp hwmem with ⟨rawWord, hraw, hlw⟩
    by_cases hall : ∀ ch2 ∈ rawWord, pyIsSpace ch2 = true
    · have hws : pyIsSpace ch = true := hlem rawWord hall ch (hlw ▸ hchw)
      rw [hws] at hchns
      cases hchns
    · push_neg at hall
      rcases hall with ⟨ch2, hch2, hch2ns⟩
      exact ⟨rawWord, hraw, ch2, hch2, by simpa using hch2ns⟩

/-- C5 (counterexample): with the shift cipher enabled (`shift = 13`),
a caption with no matching n-gram is not blanked: `synset_ds` returns
the shifted caption, which is truthy, so the non-matching caption
"cat" survives the filter against class list ["dog"] instead of
becoming the empty string. -/
theorem filter_preprocess_shift_cex :
    synset_ds cexExt "cat".toList 3 ["dog".toList] false false false 0 false
        = .bool false ∧
    filter_preprocess_txt cexExt "cat".toList ["dog".toList]
        false false false false 13 false false = some (.str "cat".toList) := by
  constructor
  · decide
  · decide

/-- C5 (amended): with an active class-name dataset, integer labels
off and the shift transform disabled — plus the facts, true of the
real helpers, that class values are not blank, the lemmatizer keeps
blank tokens blank, and `random.shuffle` permutes its list —
`filter_preprocess_txt` returns the empty string exactly when the
cleaned caption has no n-gram matching any class value (`synset_ds`
returns a falsy result); and `filter_no_caption_text` returns `False`
exactly when the sample lacks a `'text'` key or its text equals the
empty string, so such samples are dropped by `wds.select`. -/
theorem filter_preprocess_spec (E : ExtFns) (text : List Char)
    (ds : List (List Char))
    (scrambled dscipher simplecaptions strict multiclass : Bool)
    (hds : ds ≠ [])
    (hshuffle : ∀ l, (E.shuffleFn l).Perm l)
    (hvals : ∀ val ∈ E.dsValGetter ds, ∀ v ∈ val, ∃ ch ∈ v, pyIsSpace ch = false)
    (hlem : ∀ w, (∀ ch ∈ w, pyIsSpace ch = true) →
      ∀ ch ∈ E.lemmatize w, pyIsSpace ch = true) :
    (filter_preprocess_txt E text ds scrambled dscipher simplecaptions strict 0
        false multiclass = some (.str [])
      ↔ ngramMatches E (E.cleanCaptions text) ds = false) ∧
    (∀ sample : Option FilterRet, filter_no_caption_text sample = false ↔
      (sample = none ∨ sample = some (.str []))) := by
  constructor
  · cases hM : ngramMatches E (E.cleanCaptions text) ds with
    | false =>
        have hres : filter_preprocess_txt E text ds scrambled dscipher
            simplecaptions strict 0 false multiclass = some (.str []) := by
          simp only [filter_preprocess_txt, if_pos hds, Bool.false_eq_true,
            if_false]
          rw [synset_ds_flag E _ ds strict hds, hM]
          simp [SynRet.truthy, scramble_nil E hshuffle]
        rw [hres]
        simp
    | true =>
        obtain ⟨w, hw, ch, hch, hchns⟩ :=
          match_gives_nonblank E (E.cleanCaptions text) ds hvals hlem hM
        have hres : filter_preprocess_txt E text ds scrambled dscipher
            simplecaptions strict 0 false multiclass =
            (if scrambled then
              some (.str (scramble_txt E (E.cleanCaptions text)))
            else some (.str (E.cleanCaptions text))) := by
          simp only [filter_preprocess_txt, if_pos hds, Bool.false_eq_true,
            if_false]
          rw [synset_ds_flag E _ ds strict hds, hM]
          simp [SynRet.truthy]
        rw [hres]
        simp only [Bool.true_eq_false, iff_false]
        by_cases hsc : scrambled = true
        · rw [if_pos hsc]
          simp only [Option.some.injEq, FilterRet.str.injEq]
          exact scramble_ne_nil E hshuffle _ w ch hw hch hchns
        · rw [if_neg hsc]
          simp only [Option.some.injEq, FilterRet.str.injEq]
          exact List.ne_nil_of_mem (mem_of_mem_pySplit ' ' ch _ w hw hch)
  · intro sample
    cases sample with
    | none => simp [filter_no_caption_text]
    | some v =>
        by_cases hv : v = .str []
        · simp [filter_no_caption_text, hv]
        · simp [filter_no_caption_text, hv]

/-- C5 (witness): the amended statement at the concrete helpers with
class list ["dog"] and caption "cat". -/
theorem filter_preprocess_spec_witness :
    (["dog".toList] : List (List Char)) ≠ [] ∧
    (filter_preprocess_txt cexExt "cat".toList ["dog".toList]
        false false false false 0 false false = some (.str [])
      ↔ ngramMatches cexExt ("cat".toList) ["dog".toList] = false) :=
  ⟨by decide,
   (filter_preprocess_spec cexExt "cat".toList ["dog".toList]
      false false false false false (by decide)
      (fun l => List.Perm.refl l) (by decide) (fun w h => h)).1⟩

end Vlhub
